import Mathlib

/-!
Verification development for the `isometric_sort` core: the staggered-grid
geometry (`src/cells/cell.rs`), the footprint deriver and pairwise occlusion
relation (`src/cells/current.rs`), and the two depth assigners
(`src/cells/sort.rs`), shallowly embedded in Lean.  Machine integers (`u32`)
are modelled by `Nat`/`Int`; the grid sizes involved stay far below `2^31`,
so `i32`/`u32` wrap-around never triggers in any modelled scenario.
Rust `Option` maps to `Option`; a Rust `panic!` is modelled as `none` of an
enclosing `Option` result.
-/

set_option autoImplicit false
set_option linter.unusedVariables false

namespace IsoSort

/-- A grid cell: an immutable pair of unsigned coordinates (from `Cell`). -/
structure Cell where
  x : Nat
  y : Nat
deriving DecidableEq

/-- The eight compass directions (from `Direction`). -/
inductive Direction where
  | Top
  | TopRight
  | Right
  | BottomRight
  | Bottom
  | BottomLeft
  | Left
  | TopLeft
deriving DecidableEq

/-- Grid bounds, `bevy::math::UVec2` as used for `map_size`. -/
structure UVec2 where
  x : Nat
  y : Nat
deriving DecidableEq

/-- Footprint dimensions, `bevy::math::UVec3` (width, depth, height). -/
structure UVec3 where
  x : Nat
  y : Nat
  z : Nat
deriving DecidableEq

/-- `Cell::offset`: the staggered-grid coordinate delta of a direction,
depending on the parity of the current cell's `y`. -/
def Cell.offset (c : Cell) (d : Direction) : Int × Int :=
  let is_y_even := c.y % 2 == 0
  match d, is_y_even with
  | .Top, _ => (0, -2)
  | .TopRight, true => (0, -1)
  | .TopRight, false => (1, -1)
  | .Right, _ => (1, 0)
  | .BottomRight, true => (0, 1)
  | .BottomRight, false => (1, 1)
  | .Bottom, _ => (0, 2)
  | .BottomLeft, true => (-1, 1)
  | .BottomLeft, false => (0, 1)
  | .Left, _ => (-1, 0)
  | .TopLeft, true => (-1, -1)
  | .TopLeft, false => (0, -1)

/-- `Cell::maybe_new_from_offset`: bounds-check signed coordinates against
`[0, map_max)` and build a cell, or fail. -/
def Cell.maybe_new_from_offset (p : Int × Int) (mapMax : Int × Int) : Option Cell :=
  if (0 ≤ p.1 ∧ 0 ≤ p.2) ∧ (p.1 < mapMax.1 ∧ p.2 < mapMax.2) then
    some { x := p.1.toNat, y := p.2.toNat }
  else none

/-- `Cell::nth_cell_in_direction`: iterate one step `n` times,
short-circuiting to `none` when any intermediate step leaves the map. -/
def Cell.nth_cell_in_direction (c : Cell) (d : Direction) (n : Nat) (mapSize : UVec2) :
    Option Cell :=
  let mapMax : Int × Int := ((mapSize.x : Int), (mapSize.y : Int))
  (List.range n).foldl
    (fun next _ =>
      (next.map (fun cell =>
        (((cell.x : Int) + (cell.offset d).1, (cell.y : Int) + (cell.offset d).2) : Int × Int))).bind
        (fun p => Cell.maybe_new_from_offset p mapMax))
    (some c)

/-- `Cell::next_cell`: a single bounds-checked step. -/
def Cell.next_cell (c : Cell) (d : Direction) (mapSize : UVec2) : Option Cell :=
  c.nth_cell_in_direction d 1 mapSize

/-- `Ord for Cell`: deliberately compares only `y`. -/
def Cell.cmp (a b : Cell) : Ordering := compare a.y b.y

/-- `PartialOrd for Cell`: always `Some` of the total comparison. -/
def Cell.pcmp (a b : Cell) : Option Ordering := some (a.cmp b)

/-- Loop state of `CurrentCells::underneath`: the pushed slots, the cell
cursor, the row cursor, and whether the early return has fired. -/
structure UnderSt where
  cells : List (Option Cell)
  current : Option Cell
  currentRow : Option Cell
  done : Bool

/-- One `col` iteration of the nested loop in `CurrentCells::underneath`.
Once the early return (`has_found_all_cells`) fires, later iterations are
no-ops. -/
def underStep (dx dy : Nat) (colDir rowDir : Direction) (ms : UVec2)
    (st : UnderSt) (col : Nat) : UnderSt :=
  if st.done then st
  else
    let current := if col == 0 then st.currentRow else st.current
    let cells := st.cells ++ [current]
    if cells.length == dx * dy then
      { cells := cells, current := current, currentRow := st.currentRow, done := true }
    else if col == dx - 1 then
      { cells := cells, current := current,
        currentRow := st.currentRow.bind (fun cell => cell.next_cell rowDir ms), done := false }
    else
      { cells := cells, current := current.bind (fun cell => cell.next_cell colDir ms),
        currentRow := st.currentRow, done := false }

/-- `CurrentCells::flatten`: drop the clipped (`None`) slots. -/
def flatten (cells : List (Option Cell)) : List Cell :=
  cells.filterMap id

/-- `CurrentCells::underneath`.  The Rust function panics on a facing other
than `BottomRight`/`BottomLeft` (when the `width*depth == 1` early return
does not fire first); the panic is modelled as `none`. -/
def underneathCells (main : Cell) (dims : UVec3) (facing : Direction) (ms : UVec2) :
    Option (List Cell) :=
  if dims.x * dims.y == 1 then some [main]
  else
    let run := fun (colDir rowDir : Direction) =>
      flatten ((List.range dims.y).foldl
        (fun st _row => (List.range dims.x).foldl (underStep dims.x dims.y colDir rowDir ms) st)
        { cells := [], current := some main, currentRow := some main, done := false }).cells
    match facing with
    | .BottomRight => some (run .TopRight .TopLeft)
    | .BottomLeft => some (run .TopLeft .TopRight)
    | _ => none

/-- State of one layer of `CurrentCells::behind`: the collected occlusion
cells and the next layer's frontier (`next_cells_to_check`). -/
structure BehindSt where
  behindCells : List Cell
  nextCells : List Cell

/-- The guarded push used by `CurrentCells::behind`: append `c` unless it is
already in the list or lies in `underneath`. -/
def pushBehind (u : List Cell) (bs : List Cell) (c : Cell) : List Cell :=
  if !(bs.contains c) && !(u.contains c) then bs ++ [c] else bs

/-- Processing of one frontier cell `check` inside `CurrentCells::behind`:
collect its TopLeft, TopRight and Top neighbours; the Top neighbour is also
pushed onto the next frontier (deduplicated against that frontier only). -/
def behindVisit (u : List Cell) (ms : UVec2) (st : BehindSt) (check : Cell) : BehindSt :=
  let st1 :=
    match check.next_cell .TopLeft ms with
    | some c => { st with behindCells := pushBehind u st.behindCells c }
    | none => st
  let st2 :=
    match check.next_cell .TopRight ms with
    | some c => { st1 with behindCells := pushBehind u st1.behindCells c }
    | none => st1
  match check.next_cell .Top ms with
  | some c =>
      { behindCells := pushBehind u st2.behindCells c,
        nextCells := pushBehind u st2.nextCells c }
  | none => st2

/-- One `_step` iteration of `CurrentCells::behind`: fold `behindVisit` over
the current frontier, starting from an empty next frontier. -/
def behindLayer (u : List Cell) (ms : UVec2) (bs : List Cell) (checking : List Cell) :
    List Cell × List Cell :=
  let st := checking.foldl (behindVisit u ms) { behindCells := bs, nextCells := [] }
  (st.behindCells, st.nextCells)

/-- `CurrentCells::behind`: `height` layers of upward expansion starting
from the `underneath` cells. -/
def behindCells (u : List Cell) (height : Nat) (ms : UVec2) : List Cell :=
  ((List.range height).foldl
    (fun (acc : List Cell × List Cell) _ => behindLayer u ms acc.1 acc.2)
    ([], u)).1

/-- A placed footprint (`CurrentCells`). -/
structure CurrentCells where
  main_cell : Cell
  dimensions : UVec3
  facing : Direction
  underneath : List Cell
  behind : List Cell
deriving DecidableEq

/-- `CurrentCells::new`: derive `underneath` and `behind` from the placement
data; `none` when `underneath` panics on an invalid facing. -/
def CurrentCells.new (main : Cell) (dims : UVec3) (facing : Direction) (ms : UVec2) :
    Option CurrentCells :=
  (underneathCells main dims facing ms).map (fun u =>
    { main_cell := main, dimensions := dims, facing := facing,
      underneath := u, behind := behindCells u dims.z ms })

/-- `PartialEq for CurrentCells`: identity is `(main_cell, dimensions,
facing)` only; the derived sets are excluded. -/
def CurrentCells.eqCC (a b : CurrentCells) : Bool :=
  a.main_cell == b.main_cell && a.dimensions == b.dimensions && a.facing == b.facing

/-- The intersection test both halves of `PartialOrd for CurrentCells` use:
does some cell of `a.behind` lie in `b.underneath`? -/
def occludes (a b : CurrentCells) : Bool :=
  a.behind.any (fun c => b.underneath.contains c)

/-- The four possible outcomes of `PartialOrd::partial_cmp` on
`CurrentCells`, with the `(true, true)` panic made explicit. -/
inductive CmpRes where
  | greater
  | less
  | incomparable
  | contradiction
deriving DecidableEq

/-- `PartialOrd for CurrentCells`, read as a four-valued result:
`greater` when `a.behind` meets `b.underneath`, `less` in the mirrored case,
`incomparable` when neither holds, `contradiction` for the panic case. -/
def cmpCells (a b : CurrentCells) : CmpRes :=
  match occludes a b, occludes b a with
  | true, true => .contradiction
  | true, false => .greater
  | false, true => .less
  | false, false => .incomparable

/-- `PartialOrd for CurrentCells` verbatim: the outer `none` is the
`(true, true)` panic, the inner option is the `Option<Ordering>` result. -/
def ccPcmp (a b : CurrentCells) : Option (Option Ordering) :=
  match occludes a b, occludes b a with
  | true, true => none
  | true, false => some (some .gt)
  | false, true => some (some .lt)
  | false, false => some none

/-- The comparator closure of `sort_items_partial_cmp`:
`a.partial_cmp(b).or_else(|| a.main_cell.partial_cmp(&b.main_cell))`.
`none` models the panic inside `partial_cmp` (the contradiction case);
otherwise the result is the `Ordering` the `.expect` unwraps. -/
def fullCmp (a b : CurrentCells) : Option Ordering :=
  match ccPcmp a b with
  | none => none
  | some o => o.orElse (fun _ => Cell.pcmp a.main_cell b.main_cell)

/-- The `is_less` view of the `sort_items_partial_cmp` comparator, as the
standard-library stable sort consumes it.  The `none` (panic) case maps to
`false`; every theorem about the sorter assumes contradiction-free input,
where that case is unreachable (the Rust code would have panicked). -/
def isLess (a b : CurrentCells) : Bool := fullCmp a b == some Ordering.lt

/-- Backward-scan insertion of `x` into the sorted prefix `l`, as performed
by the standard library's stable insertion sort (used by `sort_by` on small
slices): `x` moves left past exactly the maximal suffix of elements it
compares less-than. -/
def insertTail {a : Type} (lt : a → a → Bool) (x : a) : List a → List a
  | [] => [x]
  | y :: ys => if lt x y && ys.all (fun e => lt x e) then x :: y :: ys else y :: insertTail lt x ys

/-- Stable insertion sort: model of `slice::sort_by`. -/
def insSortBy {a : Type} (lt : a → a → Bool) (l : List a) : List a :=
  l.foldl (fun acc x => insertTail lt x acc) []

/-- The height filter both assigners apply (`cells.dimensions.z > 0`). -/
def sortable (items : List (Nat × CurrentCells)) : List (Nat × CurrentCells) :=
  items.filter (fun it => decide (0 < it.2.dimensions.z))

/-- `sort_items_partial_cmp`: pre-sort by descending `main_cell`, then sort
by the occlusion comparator with the anchor-cell fallback. -/
def sortItemsPOrd (items : List (Nat × CurrentCells)) : List (Nat × CurrentCells) :=
  let pre := insSortBy (fun x y => Cell.cmp y.2.main_cell x.2.main_cell == Ordering.lt)
    (sortable items)
  insSortBy (fun x y => isLess x.2 y.2) pre

/-- The dependency edges `sort_items_topological` feeds to the topological
sorter: for every sortable `this` and every sortable item whose `underneath`
meets `this.behind`, the edge `(entity_behind, this_entity)`. -/
def edgesOf (items : List (Nat × CurrentCells)) : List (Nat × Nat) :=
  (sortable items).flatMap (fun this =>
    ((sortable items).filter (fun it =>
        it.2.underneath.any (fun under => this.2.behind.contains under))).map
      (fun it => (it.1, this.1)))

/-- First-occurrence deduplication (insertion order of the graph nodes). -/
def dedupKeepFirst (l : List Nat) : List Nat :=
  l.foldl (fun acc e => if acc.contains e then acc else acc ++ [e]) []

/-- The node set of the dependency graph: every entity mentioned by an
`add_dependency` call, in insertion order. -/
def nodesOf (items : List (Nat × CurrentCells)) : List Nat :=
  dedupKeepFirst ((edgesOf items).flatMap (fun e => [e.1, e.2]))

/-- Modelled from the spec (§4.4): the `topological_sort` crate is external
code; per the spec it performs a Kahn-style sort, "repeatedly emit
zero-in-degree nodes", its iterator ending when no such node exists.
`noPendingPred v` holds when no pending edge still points at `v`. -/
def noPendingPred (edges : List (Nat × Nat)) (pending : List Nat) (v : Nat) : Bool :=
  edges.all (fun e => !(e.2 == v && decide (e.1 ∈ pending)))

/-- Modelled from the spec (§4.4): Kahn-style emission; stops (without
error) when no pending node is dependency-free. -/
def kahnAux (edges : List (Nat × Nat)) : Nat → List Nat → List Nat
  | 0, _ => []
  | fuel + 1, pending =>
    match pending.find? (noPendingPred edges pending) with
    | none => []
    | some v => v :: kahnAux edges fuel (pending.erase v)

/-- The emission order of `sort_items_topological`'s `map.enumerate()`. -/
def topoOrder (items : List (Nat × CurrentCells)) : List Nat :=
  kahnAux (edgesOf items) (nodesOf items).length (nodesOf items)

/-- `assign_z`: `base_z + (index / n_items) * z_span` with `base_z = 0`,
`z_span = 5`; `f32` modelled exactly over `ℚ`. -/
def zVal (n i : Nat) : ℚ := 0 + ((i : ℚ) / (n : ℚ)) * 5

/-- Index of the first occurrence of `e` (length of the list if absent). -/
def idxOf (e : Nat) : List Nat → Nat
  | [] => 0
  | x :: xs => if x = e then 0 else idxOf e xs + 1

/-- The depth the topological pass assigns to entity `e`: entities never
enumerated (cycle members, isolated nodes) keep their previous value,
modelled as `none`. -/
def topoZ (items : List (Nat × CurrentCells)) (e : Nat) : Option ℚ :=
  if e ∈ topoOrder items then some (zVal (sortable items).length (idxOf e (topoOrder items)))
  else none

/-- The handle order produced by `sort_items_partial_cmp`. -/
def pOrdOrder (items : List (Nat × CurrentCells)) : List Nat :=
  (sortItemsPOrd items).map Prod.fst

/-- The depth the partial-order pass assigns to entity `e`. -/
def pOrdZ (items : List (Nat × CurrentCells)) (e : Nat) : Option ℚ :=
  if e ∈ pOrdOrder items then some (zVal (sortable items).length (idxOf e (pOrdOrder items)))
  else none

/-- The claim's variant of `behindVisit` ("the Top neighbour joins the next
frontier only if it passes the same filter used for collecting occlusion
cells, i.e. is not already collected"): the frontier push is additionally
guarded by non-membership in the occlusion set collected so far. -/
def behindVisitClaimed (u : List Cell) (ms : UVec2) (st : BehindSt) (check : Cell) : BehindSt :=
  let st1 :=
    match check.next_cell .TopLeft ms with
    | some c => { st with behindCells := pushBehind u st.behindCells c }
    | none => st
  let st2 :=
    match check.next_cell .TopRight ms with
    | some c => { st1 with behindCells := pushBehind u st1.behindCells c }
    | none => st1
  match check.next_cell .Top ms with
  | some c =>
      let fresh := !(st2.behindCells.contains c) && !(u.contains c)
      { behindCells := pushBehind u st2.behindCells c,
        nextCells := if fresh && !(st2.nextCells.contains c)
                     then st2.nextCells ++ [c] else st2.nextCells }
  | none => st2

/-- `behindLayer` under the claim's frontier filter. -/
def behindLayerClaimed (u : List Cell) (ms : UVec2) (bs : List Cell) (checking : List Cell) :
    List Cell × List Cell :=
  let st := checking.foldl (behindVisitClaimed u ms) { behindCells := bs, nextCells := [] }
  (st.behindCells, st.nextCells)

/-- `behindCells` under the claim's frontier filter. -/
def behindClaimed (u : List Cell) (height : Nat) (ms : UVec2) : List Cell :=
  ((List.range height).foldl
    (fun (acc : List Cell × List Cell) _ => behindLayerClaimed u ms acc.1 acc.2)
    ([], u)).1

/-! ### Generic fold helpers -/

theorem foldl_preserve {α β : Type} {P : β → Prop} (f : β → α → β) (l : List α) (init : β)
    (h0 : P init) (hstep : ∀ st x, P st → P (f st x)) : P (l.foldl f init) := by
  induction l generalizing init with
  | nil => exact h0
  | cons x xs ih => exact ih (f init x) (hstep init x h0)

theorem foldl_preserve_mem {α β : Type} {P : β → Prop} (f : β → α → β) (big : List α) :
    ∀ (l : List α), (∀ x ∈ l, x ∈ big) → ∀ init, P init →
      (∀ st x, x ∈ big → P st → P (f st x)) → P (l.foldl f init) := by
  intro l
  induction l with
  | nil => intro _ init h0 _; exact h0
  | cons x xs ih =>
      intro hsub init h0 hstep
      exact ih (fun e he => hsub e (List.mem_cons_of_mem x he)) (f init x)
        (hstep init x (hsub x (List.mem_cons_self x xs)) h0) hstep

/-! ### The occlusion test as a proposition -/

theorem occludes_iff (a b : CurrentCells) :
    occludes a b = true ↔ ∃ c ∈ a.behind, c ∈ b.underneath := by
  simp [occludes, List.any_eq_true]

/-! ### Claim C5: the step contract -/

/-- The delta table exactly as the spec states it (§4.1), keyed on the
parity of `y`. -/
def deltaSpec (d : Direction) (isYEven : Bool) : Int × Int :=
  match d, isYEven with
  | .Top, _ => (0, -2)
  | .TopRight, true => (0, -1)
  | .TopRight, false => (1, -1)
  | .Right, _ => (1, 0)
  | .BottomRight, true => (0, 1)
  | .BottomRight, false => (1, 1)
  | .Bottom, _ => (0, 2)
  | .BottomLeft, true => (-1, 1)
  | .BottomLeft, false => (0, 1)
  | .Left, _ => (-1, 0)
  | .TopLeft, true => (-1, -1)
  | .TopLeft, false => (0, -1)

theorem offset_eq_deltaSpec (c : Cell) (d : Direction) :
    Cell.offset c d = deltaSpec d (c.y % 2 == 0) := by
  unfold Cell.offset deltaSpec
  cases h : (c.y % 2 == 0) <;> cases d <;> simp [h]

/-- Claim C5: for a cell inside bounds and any of the 8 directions, `step`
(`next_cell`) returns `some` of the cell displaced by the parity-dependent
delta of the spec table exactly when the displaced coordinates lie in
`[0,width) × [0,height)`, and `none` otherwise. -/
theorem c5_step_contract (c : Cell) (d : Direction) (ms : UVec2)
    (hx : c.x < ms.x) (hy : c.y < ms.y) :
    Cell.next_cell c d ms =
      (if (0 ≤ (c.x : Int) + (deltaSpec d (c.y % 2 == 0)).1 ∧
           0 ≤ (c.y : Int) + (deltaSpec d (c.y % 2 == 0)).2) ∧
          ((c.x : Int) + (deltaSpec d (c.y % 2 == 0)).1 < (ms.x : Int) ∧
           (c.y : Int) + (deltaSpec d (c.y % 2 == 0)).2 < (ms.y : Int))
       then some { x := ((c.x : Int) + (deltaSpec d (c.y % 2 == 0)).1).toNat,
                   y := ((c.y : Int) + (deltaSpec d (c.y % 2 == 0)).2).toNat }
       else none) := by
  have h1 : Cell.next_cell c d ms =
      Cell.maybe_new_from_offset
        ((c.x : Int) + (Cell.offset c d).1, (c.y : Int) + (Cell.offset c d).2)
        ((ms.x : Int), (ms.y : Int)) := rfl
  rw [h1, offset_eq_deltaSpec]
  rfl

/-! ### Claim C8: 1×1 footprints -/

/-- Claim C8: `underneath` of a `1×1×h` footprint is exactly `[anchor]`, for every
anchor, height, facing (valid or not) and bounds. -/
theorem c8_unit_footprint_underneath (main : Cell) (h : Nat) (facing : Direction) (ms : UVec2) :
    underneathCells main ⟨1, 1, h⟩ facing ms = some [main] := rfl

/-! ### Claim C4 (amended): invalid facing fails fast unless the area-1
early return fires first -/

/-- Claim C4 (amended): constructing a footprint with a facing other than
`BottomRight`/`BottomLeft` fails with the invalid-facing panic whenever
`width*depth ≠ 1`; the `width*depth = 1` early return bypasses the check. -/
theorem c4_invalid_facing_fails (main : Cell) (dims : UVec3) (facing : Direction) (ms : UVec2)
    (harea : dims.x * dims.y ≠ 1)
    (hbr : facing ≠ Direction.BottomRight) (hbl : facing ≠ Direction.BottomLeft) :
    CurrentCells.new main dims facing ms = none := by
  have hcond : (dims.x * dims.y == 1) = false := by
    simpa using harea
  unfold CurrentCells.new underneathCells
  rw [hcond]
  cases facing <;> simp_all

/-! ### Claim C6: inversion symmetry and the Greater criterion -/

/-- Claim C6: for any contradiction-free pair, `compare(b,a)` is the exact inverse
of `compare(a,b)`, and `compare(a,b) = Greater` holds iff `a.behind`
intersects `b.underneath`. -/
theorem c6_cmp_inverse_and_greater_iff (a b : CurrentCells)
    (h : cmpCells a b ≠ CmpRes.contradiction) :
    (cmpCells b a = (match cmpCells a b with
        | CmpRes.greater => CmpRes.less
        | CmpRes.less => CmpRes.greater
        | CmpRes.incomparable => CmpRes.incomparable
        | CmpRes.contradiction => CmpRes.contradiction)) ∧
    (cmpCells a b = CmpRes.greater ↔ ∃ c ∈ a.behind, c ∈ b.underneath) := by
  have hg := occludes_iff a b
  unfold cmpCells at h ⊢
  cases hab : occludes a b <;> cases hba : occludes b a <;> simp_all

/-! ### Claim C10: the tie-break path never panics -/

/-- Claim C10: for any contradiction-free pair, the comparator of
`sort_items_partial_cmp` always produces `Some`: in the `Incomparable` case
the anchor-cell fallback supplies the ordering, so the
`expect("Ordering must be Some")` is unreachable. -/
theorem c10_fallback_total (a b : CurrentCells)
    (h : cmpCells a b ≠ CmpRes.contradiction) :
    (fullCmp a b).isSome = true ∧
    (cmpCells a b = CmpRes.incomparable →
      fullCmp a b = some (Cell.cmp a.main_cell b.main_cell)) := by
  unfold fullCmp ccPcmp
  unfold cmpCells at h ⊢
  cases hab : occludes a b <;> cases hba : occludes b a <;>
    simp_all [Option.orElse, Cell.pcmp]

/-! ### Behind-set invariants (claims C3 and C9) -/

theorem pushBehind_subset {u bs : List Cell} {c x : Cell} (hx : x ∈ pushBehind u bs c) :
    x ∈ bs ∨ (x = c ∧ c ∉ bs ∧ c ∉ u) := by
  unfold pushBehind at hx
  split at hx
  · rename_i hguard
    simp only [Bool.and_eq_true, Bool.not_eq_true'] at hguard
    rcases List.mem_append.mp hx with h | h
    · exact Or.inl h
    · rcases List.mem_singleton.mp h with rfl
      refine Or.inr ⟨rfl, ?_, ?_⟩
      · simpa using hguard.1
      · simpa using hguard.2
  · exact Or.inl hx

theorem pushBehind_nodup {u bs : List Cell} {c : Cell} (h : bs.Nodup) :
    (pushBehind u bs c).Nodup := by
  unfold pushBehind
  split
  · rename_i hguard
    simp only [Bool.and_eq_true, Bool.not_eq_true'] at hguard
    have hc : c ∉ bs := by simpa using hguard.1
    simp [List.nodup_append, h, hc]
  · exact h

theorem pushBehind_not_under {u bs : List Cell} (h : ∀ x ∈ bs, x ∉ u) (c : Cell) :
    ∀ x ∈ pushBehind u bs c, x ∉ u := by
  intro x hx
  rcases pushBehind_subset hx with hmem | ⟨rfl, _, hcu⟩
  · exact h x hmem
  · exact hcu

theorem behindVisit_not_under (u : List Cell) (ms : UVec2) (st : BehindSt) (check : Cell)
    (h : ∀ x ∈ st.behindCells, x ∉ u) :
    ∀ x ∈ (behindVisit u ms st check).behindCells, x ∉ u := by
  unfold behindVisit
  cases htl : Cell.next_cell check .TopLeft ms <;>
  cases htr : Cell.next_cell check .TopRight ms <;>
  cases ht : Cell.next_cell check .Top ms <;>
  dsimp only <;>
  first
    | exact h
    | exact pushBehind_not_under h _
    | exact pushBehind_not_under (pushBehind_not_under h _) _
    | exact pushBehind_not_under (pushBehind_not_under (pushBehind_not_under h _) _) _

theorem behindLayer_not_under (u : List Cell) (ms : UVec2) (bs checking : List Cell)
    (h : ∀ x ∈ bs, x ∉ u) :
    ∀ x ∈ (behindLayer u ms bs checking).1, x ∉ u := by
  unfold behindLayer
  exact foldl_preserve (P := fun st : BehindSt => ∀ x ∈ st.behindCells, x ∉ u)
    (behindVisit u ms) checking { behindCells := bs, nextCells := [] } h
    (fun st c hst => behindVisit_not_under u ms st c hst)

theorem behindCells_disjoint_underneath (u : List Cell) (height : Nat) (ms : UVec2) :
    ∀ x ∈ behindCells u height ms, x ∉ u := by
  unfold behindCells
  exact foldl_preserve (P := fun acc : List Cell × List Cell => ∀ x ∈ acc.1, x ∉ u)
    _ (List.range height) ([], u) (by simp)
    (fun acc _ hacc => behindLayer_not_under u ms acc.1 acc.2 hacc)

/-- The next frontier produced by `behindVisit` is either unchanged or the
guarded push of the visited cell's Top neighbour. -/
theorem behindVisit_nextCells (u : List Cell) (ms : UVec2) (st : BehindSt) (check : Cell) :
    (behindVisit u ms st check).nextCells = st.nextCells ∨
    ∃ c, Cell.next_cell check .Top ms = some c ∧
      (behindVisit u ms st check).nextCells = pushBehind u st.nextCells c := by
  unfold behindVisit
  cases htl : Cell.next_cell check .TopLeft ms <;>
  cases htr : Cell.next_cell check .TopRight ms <;>
  cases ht : Cell.next_cell check .Top ms <;>
  dsimp only <;>
  first
    | exact Or.inl rfl
    | exact Or.inr ⟨_, rfl, rfl⟩

/-- Claim C3 (amended): in `behind`, a cell joins the next layer's frontier only
if it is the Top neighbour of a current-frontier cell, in-bounds, not in
`underneath`, and not already in the next frontier (the frontier is
duplicate-free); the dedup is against the frontier being built, not against
the occlusion set collected so far. -/
theorem c3_frontier_top_neighbors (u : List Cell) (ms : UVec2) (bs checking : List Cell) :
    (∀ c ∈ (behindLayer u ms bs checking).2,
      (∃ p ∈ checking, Cell.next_cell p .Top ms = some c) ∧ c ∉ u) ∧
    (behindLayer u ms bs checking).2.Nodup := by
  unfold behindLayer
  refine foldl_preserve_mem (P := fun st : BehindSt =>
      (∀ c ∈ st.nextCells, (∃ p ∈ checking, Cell.next_cell p .Top ms = some c) ∧ c ∉ u) ∧
      st.nextCells.Nodup)
    (behindVisit u ms) checking checking (fun x hx => hx)
    { behindCells := bs, nextCells := [] } (by simp) ?_
  intro st check hcheck hst
  rcases behindVisit_nextCells u ms st check with heq | ⟨c, htop, heq⟩
  · rw [heq]; exact hst
  · rw [heq]
    refine ⟨?_, pushBehind_nodup hst.2⟩
    intro x hx
    rcases pushBehind_subset hx with hmem | ⟨rfl, _, hcu⟩
    · exact hst.1 x hmem
    · exact ⟨⟨check, hcheck, htop⟩, hcu⟩

/-! ### Claim C9: self-comparison is Incomparable, never Equal -/

/-- Claim C9: a footprint built by `CurrentCells::new` compares to itself as
`Incomparable` (`partial_cmp` returns `None`): the derived `behind` set is
disjoint from `underneath`, so the relation is irreflexive, even though the
footprint equals itself under `PartialEq` (anchor, dimensions, facing). -/
theorem c9_self_compare_incomparable (main : Cell) (dims : UVec3) (facing : Direction)
    (ms : UVec2) (fc : CurrentCells) (h : CurrentCells.new main dims facing ms = some fc) :
    cmpCells fc fc = CmpRes.incomparable ∧ (∀ c ∈ fc.behind, c ∉ fc.underneath) ∧
    CurrentCells.eqCC fc fc = true := by
  unfold CurrentCells.new at h
  cases hu : underneathCells main dims facing ms with
  | none => rw [hu] at h; simp at h
  | some u =>
    rw [hu] at h
    simp only [Option.map_some', Option.some.injEq] at h
    have hdisj : ∀ c ∈ fc.behind, c ∉ fc.underneath := by
      rw [← h]
      exact behindCells_disjoint_underneath u dims.z ms
    have hself : occludes fc fc = false := by
      simp only [occludes, List.any_eq_false]
      intro c hc
      simpa using hdisj c hc
    refine ⟨?_, hdisj, ?_⟩
    · unfold cmpCells
      rw [hself]
    · simp [CurrentCells.eqCC]

/-! ### Underneath invariants (claim C7) -/

theorem underStep_length_inv (dx dy : Nat) (colDir rowDir : Direction) (ms : UVec2)
    (st : UnderSt) (col : Nat)
    (h1 : st.cells.length ≤ dx * dy) (h2 : st.done = false → st.cells.length < dx * dy) :
    (underStep dx dy colDir rowDir ms st col).cells.length ≤ dx * dy ∧
    ((underStep dx dy colDir rowDir ms st col).done = false →
      (underStep dx dy colDir rowDir ms st col).cells.length < dx * dy) := by
  unfold underStep
  cases hd : st.done with
  | true => simp only [hd, if_true]; exact ⟨h1, by simp [hd]⟩
  | false =>
    have hlt : st.cells.length < dx * dy := h2 hd
    simp only [hd, Bool.false_eq_true, if_false]
    split <;>
    ( split
      · rename_i heq
        have heq' : st.cells.length + 1 = dx * dy := by simpa using heq
        exact ⟨by simpa using Nat.le_of_eq heq', by intro hf; simp at hf⟩
      · rename_i hne
        have hne' : st.cells.length + 1 ≠ dx * dy := by simpa using hne
        have hle : st.cells.length + 1 ≤ dx * dy := hlt
        split <;>
          exact ⟨by simpa using hle, fun _ => by simpa using Nat.lt_of_le_of_ne hle hne'⟩ )

theorem underStep_cells_extend (dx dy : Nat) (colDir rowDir : Direction) (ms : UVec2)
    (st : UnderSt) (col : Nat) :
    ∃ t, (underStep dx dy colDir rowDir ms st col).cells = st.cells ++ t := by
  unfold underStep
  cases hd : st.done with
  | true => exact ⟨[], by simp [hd]⟩
  | false =>
    simp only [hd, Bool.false_eq_true, if_false]
    split <;> split <;> (try split) <;> exact ⟨_, rfl⟩

theorem foldl_extend {α : Type} (g : UnderSt → α → UnderSt)
    (hg : ∀ st x, ∃ t, (g st x).cells = st.cells ++ t) :
    ∀ (l : List α) (init : UnderSt), ∃ t, (l.foldl g init).cells = init.cells ++ t := by
  intro l
  induction l with
  | nil => intro init; exact ⟨[], (List.append_nil _).symm⟩
  | cons x xs ih =>
      intro init
      rcases hg init x with ⟨t1, ht1⟩
      rcases ih (g init x) with ⟨t2, ht2⟩
      exact ⟨t1 ++ t2, by rw [List.foldl_cons, ht2, ht1, List.append_assoc]⟩

theorem underStep_init_cells (dx dy : Nat) (colDir rowDir : Direction) (ms : UVec2)
    (main : Cell) :
    (underStep dx dy colDir rowDir ms
      { cells := [], current := some main, currentRow := some main, done := false } 0).cells
      = [some main] := by
  unfold underStep
  simp only [Bool.false_eq_true, if_false]
  split <;> split <;> (try split) <;> rfl

theorem run_cells_head (main : Cell) (dx dy : Nat) (colDir rowDir : Direction) (ms : UVec2)
    (hdx : 0 < dx) (hdy : 0 < dy) :
    ∃ t, ((List.range dy).foldl
        (fun st _row => (List.range dx).foldl (underStep dx dy colDir rowDir ms) st)
        { cells := [], current := some main, currentRow := some main, done := false }).cells
      = some main :: t := by
  obtain ⟨m, rfl⟩ : ∃ m, dx = m + 1 := ⟨dx - 1, by omega⟩
  obtain ⟨k, rfl⟩ : ∃ k, dy = k + 1 := ⟨dy - 1, by omega⟩
  have hext : ∀ (st : UnderSt) (col : Nat),
      ∃ t, (underStep (m+1) (k+1) colDir rowDir ms st col).cells = st.cells ++ t :=
    fun st col => underStep_cells_extend (m+1) (k+1) colDir rowDir ms st col
  have hextg : ∀ (st : UnderSt) (row : Nat),
      ∃ t, ((List.range (m+1)).foldl (underStep (m+1) (k+1) colDir rowDir ms) st).cells
        = st.cells ++ t :=
    fun st _row => foldl_extend _ hext (List.range (m+1)) st
  set init : UnderSt :=
    { cells := [], current := some main, currentRow := some main, done := false } with hinit
  have hrow0 : ∃ t, ((List.range (m+1)).foldl (underStep (m+1) (k+1) colDir rowDir ms) init).cells
      = some main :: t := by
    have hr : List.range (m+1) = 0 :: (List.range m).map Nat.succ := List.range_succ_eq_map m
    rw [hr, List.foldl_cons]
    rcases foldl_extend _ hext ((List.range m).map Nat.succ)
        (underStep (m+1) (k+1) colDir rowDir ms init 0) with ⟨t, ht⟩
    rw [ht, underStep_init_cells]
    exact ⟨t, rfl⟩
  have hr2 : List.range (k+1) = 0 :: (List.range k).map Nat.succ := List.range_succ_eq_map k
  rw [hr2, List.foldl_cons]
  rcases foldl_extend (fun st _row => (List.range (m+1)).foldl
      (underStep (m+1) (k+1) colDir rowDir ms) st) hextg ((List.range k).map Nat.succ)
      ((List.range (m+1)).foldl (underStep (m+1) (k+1) colDir rowDir ms) init) with ⟨t2, ht2⟩
  rcases hrow0 with ⟨t1, ht1⟩
  refine ⟨t1 ++ t2, ?_⟩
  rw [ht2, ht1]
  rfl

theorem run_cells_length (main : Cell) (dx dy : Nat) (colDir rowDir : Direction) (ms : UVec2)
    (hpos : 0 < dx * dy) :
    ((List.range dy).foldl
        (fun st _row => (List.range dx).foldl (underStep dx dy colDir rowDir ms) st)
        { cells := [], current := some main, currentRow := some main, done := false }).cells.length
      ≤ dx * dy := by
  have hstep : ∀ (st : UnderSt) (col : Nat),
      (st.cells.length ≤ dx * dy ∧ (st.done = false → st.cells.length < dx * dy)) →
      ((underStep dx dy colDir rowDir ms st col).cells.length ≤ dx * dy ∧
        ((underStep dx dy colDir rowDir ms st col).done = false →
          (underStep dx dy colDir rowDir ms st col).cells.length < dx * dy)) :=
    fun st col h => underStep_length_inv dx dy colDir rowDir ms st col h.1 h.2
  have := foldl_preserve
    (P := fun st : UnderSt => st.cells.length ≤ dx * dy ∧
      (st.done = false → st.cells.length < dx * dy))
    (fun st _row => (List.range dx).foldl (underStep dx dy colDir rowDir ms) st)
    (List.range dy)
    { cells := [], current := some main, currentRow := some main, done := false }
    (by constructor
        · simp
        · intro _; simpa using hpos)
    (fun st row hst => foldl_preserve _ (List.range dx) st hst hstep)
  exact this.1

/-- Claim C7: for every anchor, valid facing and bounds, the `underneath` sequence
has length at most `width*depth` (clipped slots are dropped, never
replaced), is non-empty whenever both `width` and `depth` are nonzero, and
then has the anchor as its first element. -/
theorem c7_underneath_size_and_anchor (main : Cell) (dims : UVec3) (facing : Direction)
    (ms : UVec2) (u : List Cell)
    (h : underneathCells main dims facing ms = some u) :
    u.length ≤ dims.x * dims.y ∧
    (0 < dims.x → 0 < dims.y → u ≠ [] ∧ u.head? = some main) := by
  unfold underneathCells at h
  by_cases h1 : (dims.x * dims.y == 1) = true
  · rw [if_pos h1] at h
    have harea : dims.x * dims.y = 1 := by simpa using h1
    have hu : u = [main] := by simpa using h.symm
    subst hu
    exact ⟨by simp [harea], fun _ _ => ⟨by simp, rfl⟩⟩
  · rw [if_neg h1] at h
    have hrun : ∀ (colDir rowDir : Direction),
        (flatten ((List.range dims.y).foldl
          (fun st _row => (List.range dims.x).foldl
            (underStep dims.x dims.y colDir rowDir ms) st)
          { cells := [], current := some main, currentRow := some main,
            done := false }).cells) = u →
        u.length ≤ dims.x * dims.y ∧
        (0 < dims.x → 0 < dims.y → u ≠ [] ∧ u.head? = some main) := by
      intro colDir rowDir hu
      constructor
      · by_cases hpos : 0 < dims.x * dims.y
        · calc u.length ≤ _ := by
                rw [← hu]; exact List.length_filterMap_le id _
            _ ≤ dims.x * dims.y := run_cells_length main dims.x dims.y colDir rowDir ms hpos
        · -- one of the dims is zero: no iteration ever pushes, so u = []
          have hz : dims.x = 0 ∨ dims.y = 0 := by
            rcases Nat.eq_zero_of_not_pos hpos |> Nat.mul_eq_zero.mp with h' | h'
            · exact Or.inl h'
            · exact Or.inr h'
          have hu0 : u = [] := by
            rcases hz with h' | h'
            · rw [← hu]
              have : ((List.range dims.y).foldl
                  (fun st _row => (List.range dims.x).foldl
                    (underStep dims.x dims.y colDir rowDir ms) st)
                  { cells := [], current := some main, currentRow := some main,
                    done := false }).cells = [] := by
                rw [h']
                have hid : ∀ (l : List Nat) (init : UnderSt),
                    l.foldl (fun st (_row : Nat) => (List.range 0).foldl
                      (underStep 0 dims.y colDir rowDir ms) st) init = init := by
                  intro l
                  induction l with
                  | nil => intro init; rfl
                  | cons x xs ih => intro init; rw [List.foldl_cons]; exact ih init
                rw [hid]
              rw [this]
              rfl
            · rw [← hu, h']
              rfl
          simp [hu0]
      · intro hdx hdy
        rcases run_cells_head main dims.x dims.y colDir rowDir ms hdx hdy with ⟨t, ht⟩
        rw [← hu, ht]
        constructor
        · simp [flatten]
        · simp [flatten]
    cases facing with
    | BottomRight =>
        simp only [Option.some.injEq] at h
        exact hrun .TopRight .TopLeft h
    | BottomLeft =>
        simp only [Option.some.injEq] at h
        exact hrun .TopLeft .TopRight h
    | Top => simp at h
    | TopRight => simp at h
    | Right => simp at h
    | Bottom => simp at h
    | Left => simp at h
    | TopLeft => simp at h

/-! ### The topological assigner (claim C1) -/

/-- Acyclicity of the dependency graph over a node list: every nonempty
sublist contains a node with no predecessor inside the sublist (for finite
graphs this is equivalent to the absence of cycles). -/
def AcyclicOn (edges : List (Nat × Nat)) (nodes : List Nat) : Prop :=
  ∀ S ∈ nodes.sublists, S ≠ [] → ∃ v ∈ S, ∀ e ∈ edges, e.2 = v → e.1 ∉ S

instance acyclicOnDecidable (edges : List (Nat × Nat)) (nodes : List Nat) :
    Decidable (AcyclicOn edges nodes) := by
  unfold AcyclicOn
  infer_instance

theorem kahnAux_subset (edges : List (Nat × Nat)) :
    ∀ (fuel : Nat) (pending : List Nat), ∀ x ∈ kahnAux edges fuel pending, x ∈ pending := by
  intro fuel
  induction fuel with
  | zero => intro pending x hx; simp [kahnAux] at hx
  | succ n ih =>
      intro pending x hx
      unfold kahnAux at hx
      cases hf : pending.find? (noPendingPred edges pending) with
      | none => rw [hf] at hx; simp at hx
      | some v =>
          rw [hf] at hx
          rcases List.mem_cons.mp hx with rfl | hx
          · exact List.mem_of_find?_eq_some hf
          · exact (List.erase_sublist v pending).subset (ih _ x hx)

theorem noPendingPred_iff (edges : List (Nat × Nat)) (pending : List Nat) (v : Nat) :
    noPendingPred edges pending v = true ↔ ∀ e ∈ edges, e.2 = v → e.1 ∉ pending := by
  unfold noPendingPred
  rw [List.all_eq_true]
  constructor
  · intro h e he h2 h1
    have := h e he
    simp [h2, h1] at this
  · intro h e he
    by_cases h2 : e.2 = v
    · have h1 := h e he h2
      simp [h2, h1]
    · simp [h2]

theorem kahnAux_perm (edges : List (Nat × Nat)) (nodes : List Nat)
    (hacyc : AcyclicOn edges nodes) :
    ∀ (fuel : Nat) (pending : List Nat), List.Sublist pending nodes →
      pending.length ≤ fuel → List.Perm (kahnAux edges fuel pending) pending := by
  intro fuel
  induction fuel with
  | zero =>
      intro pending hsub hlen
      have hnil : pending = [] := List.length_eq_zero.mp (Nat.le_zero.mp hlen)
      subst hnil; simp [kahnAux]
  | succ n ih =>
      intro pending hsub hlen
      by_cases hemp : pending = []
      · subst hemp; simp [kahnAux]
      · unfold kahnAux
        cases hf : pending.find? (noPendingPred edges pending) with
        | none =>
            exfalso
            rcases hacyc pending (List.mem_sublists.mpr hsub) hemp with ⟨v, hv, hvp⟩
            exact (List.find?_eq_none.mp hf v hv) ((noPendingPred_iff edges pending v).mpr hvp)
        | some v =>
            have hvmem : v ∈ pending := List.mem_of_find?_eq_some hf
            have hperm := ih (pending.erase v) ((List.erase_sublist v pending).trans hsub)
              (by rw [List.length_erase_of_mem hvmem]; omega)
            exact (hperm.cons v).trans (List.perm_cons_erase hvmem).symm

theorem kahnAux_edge_order (edges : List (Nat × Nat)) (u v : Nat) (he : (u, v) ∈ edges) :
    ∀ (fuel : Nat) (pending : List Nat), u ∈ pending →
      u ∈ kahnAux edges fuel pending → v ∈ kahnAux edges fuel pending →
      idxOf u (kahnAux edges fuel pending) < idxOf v (kahnAux edges fuel pending) := by
  intro fuel
  induction fuel with
  | zero => intro pending _ hu _; simp [kahnAux] at hu
  | succ n ih =>
      intro pending hup hu hv
      unfold kahnAux at hu hv ⊢
      cases hf : pending.find? (noPendingPred edges pending) with
      | none => rw [hf] at hu; simp at hu
      | some w =>
          rw [hf] at hu hv
          have hw : noPendingPred edges pending w = true := List.find?_some hf
          have hw' := (noPendingPred_iff edges pending w).mp hw
          by_cases hvw : w = v
          · exact absurd hup (hw' (u, v) he hvw.symm)
          · by_cases huw : w = u
            · subst huw
              have hvrest : v ∈ kahnAux edges n (pending.erase w) := by
                rcases List.mem_cons.mp hv with h | h
                · exact absurd h.symm hvw
                · exact h
              simp only [idxOf]
              rw [if_neg hvw]
              simp
            · have hurest : u ∈ kahnAux edges n (pending.erase w) := by
                rcases List.mem_cons.mp hu with h | h
                · exact absurd h.symm huw
                · exact h
              have hvrest : v ∈ kahnAux edges n (pending.erase w) := by
                rcases List.mem_cons.mp hv with h | h
                · exact absurd h.symm hvw
                · exact h
              have hupe : u ∈ pending.erase w :=
                (List.mem_erase_of_ne (fun h => huw h.symm)).mpr hup
              have hrec := ih (pending.erase w) hupe hurest hvrest
              simp only [idxOf]
              rw [if_neg huw, if_neg hvw]
              omega

theorem mem_sortable {items : List (Nat × CurrentCells)} {it : Nat × CurrentCells}
    (h : it ∈ items) (hz : 0 < it.2.dimensions.z) : it ∈ sortable items :=
  List.mem_filter.mpr ⟨h, by simpa using hz⟩

theorem greater_mem_edges {items : List (Nat × CurrentCells)} {a b : Nat × CurrentCells}
    (ha : a ∈ sortable items) (hb : b ∈ sortable items)
    (hg : cmpCells a.2 b.2 = CmpRes.greater) : (b.1, a.1) ∈ edgesOf items := by
  have hocc : occludes a.2 b.2 = true := by
    by_contra hocc
    have hocc' : occludes a.2 b.2 = false := by simpa using hocc
    unfold cmpCells at hg
    rw [hocc'] at hg
    cases hoc2 : occludes b.2 a.2 <;> rw [hoc2] at hg <;> simp at hg
  rcases (occludes_iff _ _).mp hocc with ⟨c, hcb, hcu⟩
  unfold edgesOf
  rw [List.mem_flatMap]
  refine ⟨a, ha, ?_⟩
  rw [List.mem_map]
  refine ⟨b, ?_, rfl⟩
  rw [List.mem_filter]
  refine ⟨hb, ?_⟩
  simp only [List.any_eq_true]
  exact ⟨c, hcu, by simpa using hcb⟩

theorem mem_dedupKeepFirst_iff (l : List Nat) (x : Nat) :
    x ∈ dedupKeepFirst l ↔ x ∈ l := by
  unfold dedupKeepFirst
  suffices h : ∀ (l acc : List Nat),
      (x ∈ l.foldl (fun acc e => if acc.contains e then acc else acc ++ [e]) acc ↔
        x ∈ acc ∨ x ∈ l) by
    simpa using h l []
  intro l
  induction l with
  | nil => intro acc; simp
  | cons e es ih =>
      intro acc
      rw [List.foldl_cons]
      by_cases hc : (acc.contains e) = true
      · rw [if_pos hc, ih acc]
        have he : e ∈ acc := by simpa using hc
        constructor
        · rintro (h | h)
          · exact Or.inl h
          · exact Or.inr (List.mem_cons_of_mem _ h)
        · rintro (h | h)
          · exact Or.inl h
          · rcases List.mem_cons.mp h with rfl | h
            · exact Or.inl he
            · exact Or.inr h
      · rw [if_neg hc, ih (acc ++ [e])]
        simp only [List.mem_append, List.mem_singleton, List.mem_cons]
        tauto

theorem edge_mem_nodes {items : List (Nat × CurrentCells)} {e : Nat × Nat}
    (h : e ∈ edgesOf items) : e.1 ∈ nodesOf items ∧ e.2 ∈ nodesOf items := by
  unfold nodesOf
  constructor <;>
    (rw [mem_dedupKeepFirst_iff, List.mem_flatMap]; exact ⟨e, h, by simp⟩)

theorem zVal_lt (n i j : Nat) (hn : 0 < n) (hij : i < j) : zVal n i < zVal n j := by
  unfold zVal
  have h1 : (i : ℚ) < (j : ℚ) := by exact_mod_cast hij
  have hn' : (0 : ℚ) < (n : ℚ) := by exact_mod_cast hn
  have h2 := mul_lt_mul_of_pos_right (div_lt_div_of_pos_right h1 hn') (by norm_num : (0:ℚ) < 5)
  simpa using h2

/-- Claim C1 (amended): for every collection of height-positive footprints whose
occlusion-dependency graph is acyclic and whose pairwise comparisons raise
no contradiction, the topological assigner emits every graph node and
assigns depths such that for every pair with `compare(a,b) = Greater`, the
depth of `a` is strictly larger than the depth of `b`.  (The partial-order
assigner does not share this guarantee; see the counterexample.) -/
theorem c1_topological_consistent_with_greater
    (items : List (Nat × CurrentCells))
    (hz : ∀ it ∈ items, 0 < it.2.dimensions.z)
    (hacyc : AcyclicOn (edgesOf items) (nodesOf items))
    (hnc : ∀ a ∈ items, ∀ b ∈ items, cmpCells a.2 b.2 ≠ CmpRes.contradiction)
    (a b : Nat × CurrentCells) (ha : a ∈ items) (hb : b ∈ items)
    (hg : cmpCells a.2 b.2 = CmpRes.greater) :
    ∃ za zb, topoZ items a.1 = some za ∧ topoZ items b.1 = some zb ∧ zb < za := by
  have hsa : a ∈ sortable items := mem_sortable ha (hz a ha)
  have hsb : b ∈ sortable items := mem_sortable hb (hz b hb)
  have hedge : (b.1, a.1) ∈ edgesOf items := greater_mem_edges hsa hsb hg
  have hnode := edge_mem_nodes hedge
  have hperm : List.Perm (topoOrder items) (nodesOf items) :=
    kahnAux_perm _ _ hacyc _ _ (List.Sublist.refl _) (Nat.le_refl _)
  have hau : a.1 ∈ topoOrder items := hperm.mem_iff.mpr hnode.2
  have hbu : b.1 ∈ topoOrder items := hperm.mem_iff.mpr hnode.1
  have hidx : idxOf b.1 (topoOrder items) < idxOf a.1 (topoOrder items) :=
    kahnAux_edge_order (edgesOf items) b.1 a.1 hedge _ (nodesOf items) hnode.1 hbu hau
  have hnpos : 0 < (sortable items).length :=
    List.length_pos.mpr (by intro hnil; rw [hnil] at hsa; simp at hsa)
  refine ⟨zVal (sortable items).length (idxOf a.1 (topoOrder items)),
          zVal (sortable items).length (idxOf b.1 (topoOrder items)), ?_, ?_, ?_⟩
  · unfold topoZ; rw [if_pos hau]
  · unfold topoZ; rw [if_pos hbu]
  · exact zVal_lt _ _ _ hnpos hidx

/-! ### Concrete fixtures -/

/-- Throwaway footprint, used only as the `Option.getD` default of
constructions that provably succeed. -/
def junkCC : CurrentCells :=
  { main_cell := ⟨0,0⟩, dimensions := ⟨0,0,0⟩, facing := .Top, underneath := [], behind := [] }

/-- 1×1×1 at (1,4) on a 3×6 grid (in front of `ccBack`). -/
def ccFront : CurrentCells := (CurrentCells.new ⟨1,4⟩ ⟨1,1,1⟩ .BottomRight ⟨3,6⟩).getD junkCC

/-- 1×1×1 at (1,3) on a 3×6 grid. -/
def ccBack : CurrentCells := (CurrentCells.new ⟨1,3⟩ ⟨1,1,1⟩ .BottomRight ⟨3,6⟩).getD junkCC

/-- Two-object collection with one Greater relation. -/
def witItems : List (Nat × CurrentCells) := [(0, ccFront), (1, ccBack)]

/-- 1×1×2 at (0,4): in front of `cexZ`, incomparable with `cexM`. -/
def cexX : CurrentCells := (CurrentCells.new ⟨0,4⟩ ⟨1,1,2⟩ .BottomRight ⟨3,6⟩).getD junkCC

/-- 1×1×1 at (2,4): incomparable with both neighbours, same anchor row. -/
def cexM : CurrentCells := (CurrentCells.new ⟨2,4⟩ ⟨1,1,1⟩ .BottomRight ⟨3,6⟩).getD junkCC

/-- 1×3×1 at (1,4): occluded by `cexX`. -/
def cexZ : CurrentCells := (CurrentCells.new ⟨1,4⟩ ⟨1,3,1⟩ .BottomRight ⟨3,6⟩).getD junkCC

/-- The three-object collection on which the partial-order assigner breaks
the Greater constraint. -/
def cexItems : List (Nat × CurrentCells) := [(0, cexX), (1, cexM), (2, cexZ)]

/-- 3×1×1 at (1,2): mutually occluding with `ccContraB` (spec scenario C). -/
def ccContraA : CurrentCells := (CurrentCells.new ⟨1,2⟩ ⟨3,1,1⟩ .BottomRight ⟨3,6⟩).getD junkCC

/-- 1×3×1 at (2,2): mutually occluding with `ccContraA`. -/
def ccContraB : CurrentCells := (CurrentCells.new ⟨2,2⟩ ⟨1,3,1⟩ .BottomRight ⟨3,6⟩).getD junkCC

/-- The mutually-occluding pair: its dependency graph is a 2-cycle. -/
def pairC : List (Nat × CurrentCells) := [(0, ccContraA), (1, ccContraB)]

/-- 1×1×1 at (1,1) (incomparable with `ccR`). -/
def ccL : CurrentCells := (CurrentCells.new ⟨1,1⟩ ⟨1,1,1⟩ .BottomRight ⟨3,6⟩).getD junkCC

/-- 1×1×1 at (0,1). -/
def ccR : CurrentCells := (CurrentCells.new ⟨0,1⟩ ⟨1,1,1⟩ .BottomRight ⟨3,6⟩).getD junkCC

/-- The footprint the C9 witness instantiates. -/
def cc9 : CurrentCells := (CurrentCells.new ⟨1,3⟩ ⟨2,2,1⟩ .BottomRight ⟨3,6⟩).getD junkCC

/-! ### Claim C1: counterexample for the partial-order assigner, and the
witness of the topological theorem -/

/-- Counterexample for C1: `cexItems` satisfies every hypothesis of the claim
(heights positive, acyclic graph, no pairwise contradiction), and
`compare(cexX, cexZ) = Greater`, yet the partial-order assigner places the
Greater object `cexX` (handle 0) at depth 0 and `cexZ` (handle 2) at depth
10/3: the Greater object's depth is smaller, not larger.  The two
incomparable same-row mediations force the non-transitive comparator to
leave the pre-sorted order `[0, 1, 2]` untouched, so the Greater pair is
never repaired. -/
theorem c1_pord_violates_greater_pair :
    (∀ it ∈ cexItems, 0 < it.2.dimensions.z) ∧
    AcyclicOn (edgesOf cexItems) (nodesOf cexItems) ∧
    (∀ a ∈ cexItems, ∀ b ∈ cexItems, cmpCells a.2 b.2 ≠ CmpRes.contradiction) ∧
    cmpCells cexX cexZ = CmpRes.greater ∧
    pOrdZ cexItems 0 = some 0 ∧ pOrdZ cexItems 2 = some (10 / 3) ∧
    ¬ ((10 : ℚ) / 3 < 0) := by
  have horder : pOrdOrder cexItems = [0, 1, 2] := by decide
  have hlen : (sortable cexItems).length = 3 := by decide
  refine ⟨by decide, by decide, by decide, by decide, ?_, ?_, by norm_num⟩
  · unfold pOrdZ
    rw [horder, hlen]
    simp [idxOf, zVal]
  · unfold pOrdZ
    rw [horder, hlen]
    simp [idxOf, zVal]
    norm_num

/-- Witness for the C1 topological theorem at the two-object fixture. -/
theorem c1_topological_consistent_witness :
    (∀ it ∈ witItems, 0 < it.2.dimensions.z) ∧
    AcyclicOn (edgesOf witItems) (nodesOf witItems) ∧
    (∀ a ∈ witItems, ∀ b ∈ witItems, cmpCells a.2 b.2 ≠ CmpRes.contradiction) ∧
    (0, ccFront) ∈ witItems ∧ (1, ccBack) ∈ witItems ∧
    cmpCells ccFront ccBack = CmpRes.greater ∧
    (∃ za zb, topoZ witItems 0 = some za ∧ topoZ witItems 1 = some zb ∧ zb < za) :=
  ⟨by decide, by decide, by decide, by decide, by decide, by decide,
   c1_topological_consistent_with_greater witItems (by decide) (by decide) (by decide)
     (0, ccFront) (1, ccBack) (by decide) (by decide) (by decide)⟩

/-! ### Claim C2: silent truncation on a cycle -/

/-- Claim C2: at the mutually-occluding pair (spec scenario C) the dependency
graph of `sort_items_topological` is a 2-cycle; the Kahn enumeration emits
nothing and the pass raises no error, so both sortable entities silently
keep their previous depth values instead of the pass failing. -/
theorem c2_cycle_silent_truncation :
    edgesOf pairC ≠ [] ∧ (sortable pairC).length = 2 ∧ topoOrder pairC = [] ∧
    topoZ pairC 0 = none ∧ topoZ pairC 1 = none := by
  have hord : topoOrder pairC = [] := by decide
  refine ⟨by decide, by decide, hord, ?_, ?_⟩ <;> simp [topoZ, hord]

/-! ### Claim C3: counterexample and witness -/

/-- Counterexample for C3: on `underneath = [(1,4),(0,5)]` with height 2 (the
hand-written-list shape the behind unit tests also use), cell (0,3) is
collected as the TopLeft neighbour of (1,4) and is afterwards still pushed
onto the frontier as the Top neighbour of (0,5), because the code dedups
the frontier only against itself; (0,3) then spawns layer 2 and collects
(0,2).  Under the claim's already-collected filter the result would lack
(0,2), so the claim's description of the frontier filter is false. -/
theorem c3_frontier_readmits_collected :
    behindCells [⟨1,4⟩, ⟨0,5⟩] 2 ⟨3,7⟩ ≠ behindClaimed [⟨1,4⟩, ⟨0,5⟩] 2 ⟨3,7⟩ ∧
    (⟨0,2⟩ : Cell) ∈ behindCells [⟨1,4⟩, ⟨0,5⟩] 2 ⟨3,7⟩ ∧
    (⟨0,2⟩ : Cell) ∉ behindClaimed [⟨1,4⟩, ⟨0,5⟩] 2 ⟨3,7⟩ := by decide

/-- Witness for the C3 theorem: (1,0) enters the frontier of the layer over
`[(1,2)]` and is the Top neighbour of (1,2), outside `underneath`. -/
theorem c3_frontier_top_neighbors_witness :
    (⟨1,0⟩ : Cell) ∈ (behindLayer [⟨1,2⟩] ⟨3,7⟩ [] [⟨1,2⟩]).2 ∧
    ((∃ p ∈ [(⟨1,2⟩ : Cell)], Cell.next_cell p .Top ⟨3,7⟩ = some ⟨1,0⟩) ∧
      (⟨1,0⟩ : Cell) ∉ [(⟨1,2⟩ : Cell)]) ∧
    (behindLayer [⟨1,2⟩] ⟨3,7⟩ [] [⟨1,2⟩]).2.Nodup :=
  ⟨by decide,
   (c3_frontier_top_neighbors [⟨1,2⟩] ⟨3,7⟩ [] [⟨1,2⟩]).1 ⟨1,0⟩ (by decide),
   (c3_frontier_top_neighbors [⟨1,2⟩] ⟨3,7⟩ [] [⟨1,2⟩]).2⟩

/-! ### Claim C4: counterexample and witness -/

/-- Counterexample for C4: with width = depth = 1, the invalid facing `Top` is
not rejected — construction succeeds and returns the anchor-only footprint,
where the claim demands an invalid-facing failure even in this case. -/
theorem c4_area_one_skips_facing_check :
    CurrentCells.new ⟨1,1⟩ ⟨1,1,1⟩ .Top ⟨3,6⟩ ≠ none ∧
    (CurrentCells.new ⟨1,1⟩ ⟨1,1,1⟩ .Top ⟨3,6⟩).map CurrentCells.underneath
      = some [⟨1,1⟩] := by decide

/-- Witness for the C4 amended theorem (the repository's own panic test:
dims 1×2, facing Top). -/
theorem c4_invalid_facing_fails_witness :
    ((⟨1,2,1⟩ : UVec3).x * (⟨1,2,1⟩ : UVec3).y ≠ 1) ∧
    (Direction.Top ≠ Direction.BottomRight) ∧ (Direction.Top ≠ Direction.BottomLeft) ∧
    CurrentCells.new ⟨1,1⟩ ⟨1,2,1⟩ .Top ⟨3,6⟩ = none :=
  ⟨by decide, by decide, by decide,
   c4_invalid_facing_fails ⟨1,1⟩ ⟨1,2,1⟩ .Top ⟨3,6⟩ (by decide) (by decide) (by decide)⟩

/-! ### Remaining witnesses -/

/-- Witness for C5 at cell (1,3), direction Top, bounds 3×6. -/
theorem c5_step_contract_witness :
    (⟨1,3⟩ : Cell).x < (⟨3,6⟩ : UVec2).x ∧ (⟨1,3⟩ : Cell).y < (⟨3,6⟩ : UVec2).y ∧
    Cell.next_cell ⟨1,3⟩ .Top ⟨3,6⟩ = some ⟨1,1⟩ := by
  refine ⟨by decide, by decide, ?_⟩
  have h := c5_step_contract ⟨1,3⟩ .Top ⟨3,6⟩ (by decide) (by decide)
  rw [h]
  decide

/-- Witness for C6 at the front/back fixture pair. -/
theorem c6_cmp_inverse_witness :
    cmpCells ccFront ccBack ≠ CmpRes.contradiction ∧
    ((cmpCells ccBack ccFront = (match cmpCells ccFront ccBack with
        | CmpRes.greater => CmpRes.less
        | CmpRes.less => CmpRes.greater
        | CmpRes.incomparable => CmpRes.incomparable
        | CmpRes.contradiction => CmpRes.contradiction)) ∧
      (cmpCells ccFront ccBack = CmpRes.greater ↔
        ∃ c ∈ ccFront.behind, c ∈ ccBack.underneath)) :=
  ⟨by decide, c6_cmp_inverse_and_greater_iff ccFront ccBack (by decide)⟩

/-- Witness for C7 at the 2×2 footprint of the repository's tests. -/
theorem c7_underneath_witness :
    underneathCells ⟨1,3⟩ ⟨2,2,1⟩ .BottomRight ⟨3,6⟩
      = some [⟨1,3⟩, ⟨2,2⟩, ⟨1,2⟩, ⟨1,1⟩] ∧
    (([⟨1,3⟩, ⟨2,2⟩, ⟨1,2⟩, ⟨1,1⟩] : List Cell).length
        ≤ (⟨2,2,1⟩ : UVec3).x * (⟨2,2,1⟩ : UVec3).y ∧
      (0 < (⟨2,2,1⟩ : UVec3).x → 0 < (⟨2,2,1⟩ : UVec3).y →
        ([⟨1,3⟩, ⟨2,2⟩, ⟨1,2⟩, ⟨1,1⟩] : List Cell) ≠ [] ∧
        ([⟨1,3⟩, ⟨2,2⟩, ⟨1,2⟩, ⟨1,1⟩] : List Cell).head? = some ⟨1,3⟩)) := by
  have h : underneathCells ⟨1,3⟩ ⟨2,2,1⟩ .BottomRight ⟨3,6⟩
      = some [⟨1,3⟩, ⟨2,2⟩, ⟨1,2⟩, ⟨1,1⟩] := by decide
  exact ⟨h, c7_underneath_size_and_anchor ⟨1,3⟩ ⟨2,2,1⟩ .BottomRight ⟨3,6⟩ _ h⟩

/-- Witness for C9 at the 2×2 footprint. -/
theorem c9_self_compare_witness :
    CurrentCells.new ⟨1,3⟩ ⟨2,2,1⟩ .BottomRight ⟨3,6⟩ = some cc9 ∧
    (cmpCells cc9 cc9 = CmpRes.incomparable ∧ (∀ c ∈ cc9.behind, c ∉ cc9.underneath) ∧
      CurrentCells.eqCC cc9 cc9 = true) := by
  have h : CurrentCells.new ⟨1,3⟩ ⟨2,2,1⟩ .BottomRight ⟨3,6⟩ = some cc9 := by decide
  exact ⟨h, c9_self_compare_incomparable ⟨1,3⟩ ⟨2,2,1⟩ .BottomRight ⟨3,6⟩ cc9 h⟩

/-- Witness for C10 at an incomparable pair (same row, adjacent columns). -/
theorem c10_fallback_total_witness :
    cmpCells ccL ccR ≠ CmpRes.contradiction ∧
    ((fullCmp ccL ccR).isSome = true ∧
      (cmpCells ccL ccR = CmpRes.incomparable →
        fullCmp ccL ccR = some (Cell.cmp ccL.main_cell ccR.main_cell))) :=
  ⟨by decide, c10_fallback_total ccL ccR (by decide)⟩

end IsoSort
